import Mathlib

/-!
Verification development for the Chronologicon Engine (Node.js service).

The ingestion pipeline (`processFile` in the file-processor module) and the
three analytics algorithms (`findOverlappingEvents`, `findTemporalGaps`,
`findEventInfluencePath` in the insight service) are embedded shallowly:

* instants are integer epoch-milliseconds (`Millis`), matching
  `Date.prototype.getTime()`;
* `Math.floor(x / 60000)` on an integer `x` of milliseconds is `Int.fdiv x
  60000` (floor division);
* `Math.round((end - start) / 60000)` is `Int.fdiv (2 * (end - start) + 60000)
  120000`, since `Math.round v = Real.floor (v + 1/2)`;
* JavaScript `Set` / `Map` state is modelled with insertion-ordered lists;
* PostgreSQL tables are modelled as lists of rows, with the primary-key /
  foreign-key behaviour of the statements issued by the code made explicit.
-/

namespace Chronologicon

/-! ## Definitions: shallow embedding of the analytics algorithms and the
ingestion pipeline -/

/-- Epoch milliseconds, the value of `Date.prototype.getTime()`. -/
abbrev Millis := Int

/-! ## Analytics data model

Rows returned by the `historical_events` queries used by the insight service
(`event_id, event_name, start_date, end_date`).  Event ids are UUID strings in
the service; any type with decidable equality is faithful for the algorithms,
which only compare ids, so we use `Nat`. -/
structure AEvent where
  event_id : Nat
  event_name : String
  start_date : Millis
  end_date : Millis
deriving DecidableEq, Repr

/-! ## `findOverlappingEvents` (insight.service.js)

Sweep line: two points per event, sorted by time with `start` before `end` at
equal times; on each `start` point the newly active event is paired with every
currently active event, and a pair is reported once (dedup by normalised pair
key) when its overlap, floored to whole minutes, is strictly positive. -/
structure SweepPoint where
  time : Millis
  isStart : Bool
  event : AEvent
deriving DecidableEq, Repr

/-- The `points` array: per event one `start` and one `end` point, in event
order (the JS code pushes the start point, then the end point). -/
def eventPoints (events : List AEvent) : List SweepPoint :=
  events.flatMap fun e => [⟨e.start_date, true, e⟩, ⟨e.end_date, false, e⟩]

/-- Rank used for the sort tie-break: the JS comparator
`a.time - b.time || (a.type === 'start' ? -1 : 1)` puts a `start` point before
an `end` point at the same instant. -/
def pointRank (p : SweepPoint) : Nat := if p.isStart then 0 else 1

/-- The sort order on sweep points: by time, `start` before `end` on ties.
The JS comparator is not antisymmetric between two points of the same kind at
the same instant; `Array.prototype.sort` may order such points arbitrarily and
the algorithm's reported pair set does not depend on that choice, so the
embedding fixes the stable order. -/
def pointLE (a b : SweepPoint) : Prop :=
  a.time < b.time ∨ (a.time = b.time ∧ pointRank a ≤ pointRank b)

instance : DecidableRel pointLE := fun a b => by
  unfold pointLE; infer_instance

instance : IsTotal SweepPoint pointLE where
  total a b := by
    unfold pointLE
    rcases lt_trichotomy a.time b.time with h | h | h
    · exact Or.inl (Or.inl h)
    · rcases Nat.le_total (pointRank a) (pointRank b) with h' | h'
      · exact Or.inl (Or.inr ⟨h, h'⟩)
      · exact Or.inr (Or.inr ⟨h.symm, h'⟩)
    · exact Or.inr (Or.inl h)

instance : IsTrans SweepPoint pointLE where
  trans a b c hab hbc := by
    unfold pointLE at *
    rcases hab with h1 | ⟨h1, r1⟩ <;> rcases hbc with h2 | ⟨h2, r2⟩
    · exact Or.inl (h1.trans h2)
    · exact Or.inl (h2 ▸ h1)
    · exact Or.inl (h1 ▸ h2)
    · exact Or.inr ⟨h1.trans h2, r1.trans r2⟩

def sortPoints (ps : List SweepPoint) : List SweepPoint :=
  ps.insertionSort pointLE

/-- The normalised unordered pair key.  The JS code uses
`[idA, idB].sort().join('|')`; any canonical form of the unordered pair is
equivalent, we order the two ids. -/
def pairKey (i j : Nat) : Nat × Nat := if i ≤ j then (i, j) else (j, i)

/-- `Math.floor((min(endA, endB) - max(startA, startB)) / 60000)`. -/
def overlapMinutes (a b : AEvent) : Int :=
  Int.fdiv (min a.end_date b.end_date - max a.start_date b.start_date) 60000

/-- One element of the result array: the two event summaries (the newly
starting event first, the already active event second) and the overlap. -/
structure OverlapEntry where
  e1 : AEvent
  e2 : AEvent
  overlap_duration_minutes : Int
deriving DecidableEq, Repr

def entryKey (en : OverlapEntry) : Nat × Nat :=
  pairKey en.e1.event_id en.e2.event_id

structure SweepState where
  active : List AEvent
  reported : List (Nat × Nat)
  out : List OverlapEntry
deriving DecidableEq, Repr

/-- The body of the inner `for (const activeEvent of activeEvents)` loop for
the starting event `e` and one active event `a`: report the pair once when
its floored overlap is strictly positive. -/
def considerPair (e : AEvent) (st : SweepState) (a : AEvent) : SweepState :=
  if pairKey e.event_id a.event_id ∈ st.reported then st
  else if 0 < overlapMinutes e a then
    { st with out := st.out ++ [⟨e, a, overlapMinutes e a⟩],
              reported := st.reported ++ [pairKey e.event_id a.event_id] }
  else st

/-- Processing one sweep point: on a `start` point run the pairing loop over
the active set and then add the event; on an `end` point remove it. -/
def processPoint (st : SweepState) (p : SweepPoint) : SweepState :=
  if p.isStart then
    { st.active.foldl (considerPair p.event) st with
        active := (st.active.foldl (considerPair p.event) st).active ++ [p.event] }
  else
    { st with active := st.active.erase p.event }

/-- The whole sweep over the sorted points, from the empty state. -/
def sweepAll (events : List AEvent) : SweepState :=
  (sortPoints (eventPoints events)).foldl processPoint ⟨[], [], []⟩

def findOverlappingEvents (events : List AEvent) : List OverlapEntry :=
  if events.length < 2 then []
  else (sweepAll events).out

/-- The evolution of the active set only depends on the points. -/
def activeStep (acc : List AEvent) (p : SweepPoint) : List AEvent :=
  if p.isStart then acc ++ [p.event] else acc.erase p.event

/-- The well-formedness of one output entry: both summaries are input events
and the recorded overlap is their strictly positive floored overlap. -/
def EntryOK (events : List AEvent) (en : OverlapEntry) : Prop :=
  en.e1 ∈ events ∧ en.e2 ∈ events ∧ 0 < overlapMinutes en.e1 en.e2 ∧
    en.overlap_duration_minutes = overlapMinutes en.e1 en.e2

/-! ## `findTemporalGaps` (insight.service.js)

Linear scan over consecutive events (fetched sorted by start date), keeping a
running best-gap record.  The comparison in the source is
`gapDurationMs > largestGap.durationMinutes * 60 * 1000`, i.e. milliseconds
against the running best's *floored minutes*, and the final answer is `null`
unless the best record's floored minutes are strictly positive. -/
structure PrecedingSummary where
  event_id : Nat
  event_name : String
  end_date : Millis
deriving DecidableEq, Repr

structure SucceedingSummary where
  event_id : Nat
  event_name : String
  start_date : Millis
deriving DecidableEq, Repr

structure GapRecord where
  durationMinutes : Int
  startOfGap : Option Millis
  endOfGap : Option Millis
  precedingEvent : Option PrecedingSummary
  succeedingEvent : Option SucceedingSummary
deriving DecidableEq, Repr

def noGapMessage : String :=
  "No significant temporal gaps found within the specified range, or too few events."

def gapFoundMessage : String := "Largest temporal gap identified."

structure GapResult where
  largestGap : Option GapRecord
  message : String
deriving DecidableEq, Repr

/-- `succeedingEvent.start_date - precedingEvent.end_date` in milliseconds. -/
def gapMs (pr : AEvent × AEvent) : Int := pr.2.start_date - pr.1.end_date

/-- The record built when a new largest gap is adopted. -/
def mkGapRecord (pr : AEvent × AEvent) : GapRecord :=
  { durationMinutes := Int.fdiv (gapMs pr) 60000
    startOfGap := some pr.1.end_date
    endOfGap := some pr.2.start_date
    precedingEvent := some ⟨pr.1.event_id, pr.1.event_name, pr.1.end_date⟩
    succeedingEvent := some ⟨pr.2.event_id, pr.2.event_name, pr.2.start_date⟩ }

/-- One iteration of the gap loop. -/
def gapStep (best : GapRecord) (pr : AEvent × AEvent) : GapRecord :=
  if best.durationMinutes * 60000 < gapMs pr then mkGapRecord pr else best

def initGapRecord : GapRecord := ⟨0, none, none, none, none⟩

/-- The `(events[i], events[i+1])` pairs scanned by the loop. -/
def consecutivePairs (events : List AEvent) : List (AEvent × AEvent) :=
  events.zip events.tail

def findTemporalGaps (events : List AEvent) : GapResult :=
  if events.length < 2 then ⟨none, noGapMessage⟩
  else if 0 < ((consecutivePairs events).foldl gapStep initGapRecord).durationMinutes then
    ⟨some ((consecutivePairs events).foldl gapStep initGapRecord), gapFoundMessage⟩
  else ⟨none, noGapMessage⟩

/-- The floored-minute value of the largest gap (clamped below at the loop's
initial value `0`). -/
def maxGapMinutes (events : List AEvent) : Int :=
  (consecutivePairs events).foldl (fun m pr => max m (Int.fdiv (gapMs pr) 60000)) 0

/-! ## `findEventInfluencePath` (insight.service.js)

Dijkstra over the descendant subtree rows returned by the recursive CTE
(`event_id, event_name, duration_minutes, parent_event_id`).  The JS `Map`s
(`eventMap`, `distances`, `previousNodes`) keep the last binding per key; the
pending set is a JS `Set` iterated in insertion order.  `Infinity` is `⊤` in
`WithTop Int` (so `⊤ + d = ⊤` and `x < ⊤` behave like the JS comparisons). -/
structure PEvent where
  event_id : Nat
  event_name : String
  duration_minutes : Int
  parent_event_id : Option Nat
deriving DecidableEq, Repr

structure PathNode where
  event_id : Nat
  event_name : String
  duration_minutes : Int
deriving DecidableEq, Repr

/-- `eventMap.get(i)`: the last row with that id wins, as in a JS `Map` built
by insertion. -/
def mapLookup (events : List PEvent) (i : Nat) : Option PathNode :=
  (events.reverse.find? fun e => e.event_id == i).map
    fun e => ⟨e.event_id, e.event_name, e.duration_minutes⟩

/-- `childrenMap.get(i) || []`, in insertion order. -/
def childrenOf (events : List PEvent) (i : Nat) : List Nat :=
  (events.filter fun e => e.parent_event_id == some i).map PEvent.event_id

/-- `previousNodes.get(i)`: the last binding wins. -/
def prevLookup (prev : List (Nat × Nat)) (i : Nat) : Option Nat :=
  (prev.reverse.find? fun q => q.1 == i).map Prod.snd

def setDist (d : Nat → WithTop Int) (i : Nat) (v : WithTop Int) : Nat → WithTop Int :=
  fun j => if j = i then v else d j

/-- `distances` after initialization: `Infinity` everywhere, then the source
set to its own `duration_minutes` (the recursive-CTE contract guarantees the
source row is present whenever the row set is nonempty; on an absent source
the JS code would throw, which no claim exercises). -/
def initDistances (events : List PEvent) (source : Nat) : Nat → WithTop Int :=
  match mapLookup events source with
  | some n => setDist (fun _ => ⊤) source (n.duration_minutes : WithTop Int)
  | none => fun _ => ⊤

/-- The linear scan for the pending node with the smallest distance (strict
`<`, so the first minimum in insertion order wins). -/
def extractMin (dist : Nat → WithTop Int) (pq : List Nat) : Option Nat :=
  pq.foldl (fun u i =>
    match u with
    | none => some i
    | some cu => if dist i < dist cu then some i else some cu) none

/-- `pq.add(v)`: a JS `Set` keeps the original position of an element that is
already present. -/
def pqAdd (pq : List Nat) (v : Nat) : List Nat :=
  if v ∈ pq then pq else pq ++ [v]

structure DijkstraState where
  dist : Nat → WithTop Int
  prev : List (Nat × Nat)
  pq : List Nat

/-- Relaxation of the edges `u → v` over all children `v` of `u` (every child
id is an event id, so the lookup never misses; the `none` branch is a safe
model of the unreachable case). -/
def relaxChildren (events : List PEvent) (u : Nat) (st : DijkstraState) : DijkstraState :=
  (childrenOf events u).foldl (fun s v =>
    match mapLookup events v with
    | some nv =>
      if s.dist u + (nv.duration_minutes : WithTop Int) < s.dist v then
        { dist := setDist s.dist v (s.dist u + (nv.duration_minutes : WithTop Int)),
          prev := s.prev ++ [(v, u)],
          pq := pqAdd s.pq v }
      else s
    | none => s) st

/-- The `while (pq.size > 0)` loop, with explicit fuel.  An iteration removes
the extracted minimum; nodes re-enter the pending set only on a strict
distance improvement, so on the finite descendant trees with nonnegative
durations considered here the fuel `(events.length + 1) ^ 2` is never
exhausted; on exhaustion the embedding returns the current state. -/
def dijkstraLoop (events : List PEvent) (target : Nat) :
    Nat → DijkstraState → DijkstraState
  | 0, st => st
  | fuel + 1, st =>
    match extractMin st.dist st.pq with
    | none => st
    | some u =>
      if u = target then { st with pq := st.pq.erase u }
      else
        dijkstraLoop events target fuel
          (relaxChildren events u { st with pq := st.pq.erase u })

/-- The `while (currentId)` reconstruction walk: `unshift` the node for the
current id, then follow the predecessor map; the walk ends when no
predecessor exists.  Fuel bounds the walk against predecessor cycles, which
cannot arise from strict-improvement updates. -/
def walkPath (events : List PEvent) (prev : List (Nat × Nat)) :
    Nat → Option Nat → List PathNode → List PathNode
  | 0, _, acc => acc
  | _ + 1, none, acc => acc
  | fuel + 1, some i, acc =>
    walkPath events prev fuel (prevLookup prev i) ((mapLookup events i).toList ++ acc)

inductive InfluenceResult where
  | sourceNotFound
  | result (sourceEventId targetEventId : Nat) (shortestPath : List PathNode)
      (totalDurationMinutes : WithTop Int) (message : String)
deriving DecidableEq

def noPathMessage : String := "No temporal path found from source to target event."

def pathFoundMessage : String :=
  "Shortest temporal path found from source to target event."

def findEventInfluencePath (events : List PEvent) (sourceEventId targetEventId : Nat) :
    InfluenceResult :=
  if events.isEmpty then .sourceNotFound
  else if (mapLookup events targetEventId).isNone then
    .result sourceEventId targetEventId [] 0 noPathMessage
  else
    match
      (fun final =>
        (final,
          if (prevLookup final.prev targetEventId).isSome ∨ targetEventId = sourceEventId then
            walkPath events final.prev (events.length + 1) (some targetEventId) []
          else []))
        (dijkstraLoop events targetEventId ((events.length + 1) * (events.length + 1))
          { dist := initDistances events sourceEventId, prev := [],
            pq := [sourceEventId] }) with
    | (_, []) => .result sourceEventId targetEventId [] 0 noPathMessage
    | (final, n :: rest) =>
      if n.event_id = sourceEventId then
        .result sourceEventId targetEventId (n :: rest) (final.dist targetEventId)
          pathFoundMessage
      else .result sourceEventId targetEventId [] 0 noPathMessage

/-! ## `processFile` (ingestion file processor)

The per-line pipeline: split on `|`, validate, insert into
`historical_events` with `ON CONFLICT (event_id) DO NOTHING`; a foreign-key
violation (code 23503) diverts the row to `staging_events` and still counts
the line as processed; any other validation failure records a per-line error.
After the stream ends, a single SQL statement promotes staged rows in two
passes (`first_part`: staged rows whose parent is committed; `second_part`:
staged rows whose parent is in `first_part`), then the job is finalized.
`Date` parsing is environment-defined in JS, so it enters the embedding as a
`parseDate` parameter; a claim never depends on a particular date syntax. -/
/-- Split on every occurrence of a single character, as
`String.prototype.split` does (`"".split` gives `[""]`, a trailing separator
yields a trailing empty field).  Written on the character list so that it
reduces inside the kernel. -/
def jsSplitAux (sep : Char) : List Char → List Char → List String
  | [], acc => [String.mk acc.reverse]
  | c :: cs, acc =>
    if c = sep then String.mk acc.reverse :: jsSplitAux sep cs []
    else jsSplitAux sep cs (c :: acc)

def jsSplit (sep : Char) (s : String) : List String := jsSplitAux sep s.data []

/-- `String.prototype.toUpperCase` restricted to the ASCII range exercised
here. -/
def jsToUpper (s : String) : String := String.mk (s.data.map Char.toUpper)

def isHexDigit (c : Char) : Bool :=
  c.isDigit || ('a' ≤ c && c ≤ 'f') || ('A' ≤ c && c ≤ 'F')

/-- `UUID_REGEX`: `/^[0-9a-f]{8}-[0-9a-f]{4}-[0-9a-f]{4}-[0-9a-f]{4}-[0-9a-f]{12}$/i`. -/
def isUUID (s : String) : Bool :=
  ((jsSplit '-' s).map String.length == [8, 4, 4, 4, 12]) &&
    (jsSplit '-' s).all fun g => g.data.all isHexDigit

structure Parsed where
  eventId : String
  eventName : String
  description : String
  startMs : Millis
  endMs : Millis
  durationMinutes : Int
  parentEventId : Option String
  researchValue : String
deriving DecidableEq, Repr

/-- `Math.round((endDate - startDate) / (1000 * 60))`: JS rounds to the
nearest integer, halves toward positive infinity, i.e. `floor(x + 1/2)`. -/
def jsRoundMinutes (d : Millis) : Int := Int.fdiv (2 * d + 60000) 120000

/-- One line's validation, returning the thrown error message or the parsed
event.  The JS messages quote the offending value between single quotes; the
embedding drops only those quote characters. -/
def parseLine (parseDate : String → Option Millis) (line : String) :
    Except String Parsed :=
  match jsSplit '|' line with
  | [eventId, eventName, startIso, endIso, parentIdOrNull, researchValue, descTail] =>
    -- with exactly 7 raw fields, `rest` is the singleton seventh field and
    -- `rest.join('|')` is just that field
    if !isUUID eventId then
      .error ("Invalid UUID format for event_id: " ++ eventId)
    else if jsToUpper parentIdOrNull != "NULL" && !isUUID parentIdOrNull then
      .error ("Invalid UUID format for parent_event_id: " ++ parentIdOrNull)
    else
      match parseDate startIso, parseDate endIso with
      | some s, some e =>
        if e < s then .error "start_date cannot be after end_date."
        else
          .ok { eventId := eventId
                eventName := eventName
                description := descTail
                startMs := s
                endMs := e
                durationMinutes := jsRoundMinutes (e - s)
                parentEventId :=
                  if jsToUpper parentIdOrNull == "NULL" then none else some parentIdOrNull
                researchValue := researchValue }
      | _, _ =>
        .error ("Invalid date format. Start: " ++ startIso ++ ", End: " ++ endIso)
  | parts =>
    .error ("Invalid number of fields. Expected 7, got " ++ toString parts.length ++ ".")

inductive JobStatus where
  | PENDING

  | PROCESSING
  | COMPLETED
  | FAILED
deriving DecidableEq, Repr

structure Row where
  event_id : String
  event_name : String
  description : String
  start_date : Millis
  end_date : Millis
  duration_minutes : Int
  parent_event_id : Option String
  meta_sourceFile : String
  meta_lineNumber : Nat
  meta_researchValue : String
deriving DecidableEq, Repr

structure Job where
  status : JobStatus
  total_lines : Nat
  processed_lines : Nat
  error_lines : Nat
  errors : List String
  end_time_stamped : Bool
deriving DecidableEq, Repr

structure DB where
  historical : List Row
  staging : List Row
  job : Job
deriving DecidableEq, Repr

def rowIds (rows : List Row) : List String := rows.map Row.event_id

def rowOf (filePath : String) (lineNumber : Nat) (p : Parsed) : Row :=
  ⟨p.eventId, p.eventName, p.description, p.startMs, p.endMs, p.durationMinutes,
    p.parentEventId, filePath, lineNumber, p.researchValue⟩

/-- `INSERT ... ON CONFLICT (event_id) DO NOTHING` into `historical_events`:
a conflicting id is a silent no-op (the skipped row is not constraint
checked); otherwise the `parent_event_id` foreign key must resolve, else the
statement raises error 23503 (`none` result). -/
def insertHistorical (hist : List Row) (r : Row) : Option (List Row) :=
  if r.event_id ∈ rowIds hist then some hist
  else
    match r.parent_event_id with
    | none => some (hist ++ [r])
    | some p => if p ∈ rowIds hist then some (hist ++ [r]) else none

/-- `INSERT ... ON CONFLICT (event_id) DO NOTHING` into `staging_events`
(the staging table has no foreign keys). -/
def insertStaging (stg : List Row) (r : Row) : List Row :=
  if r.event_id ∈ rowIds stg then stg else stg ++ [r]

def lineErrorString (n : Nat) (msg : String) : String :=
  "Line " ++ toString n ++ ": " ++ msg

structure LoopState where
  db : DB
  lineNumber : Nat
  successCount : Nat
deriving DecidableEq, Repr

/-- One iteration of `for await (const line of rl)`. -/
def stepLine (parseDate : String → Option Millis) (filePath : String)
    (st : LoopState) (line : String) : LoopState :=
  match parseLine parseDate line with
  | .error msg =>
    { st with
      lineNumber := st.lineNumber + 1
      db := { st.db with job := { st.db.job with
        error_lines := st.db.job.error_lines + 1
        errors := st.db.job.errors ++ [lineErrorString (st.lineNumber + 1) msg] } } }
  | .ok p =>
    match insertHistorical st.db.historical (rowOf filePath (st.lineNumber + 1) p) with
    | some hist' =>
      { db := { st.db with
          historical := hist'
          job := { st.db.job with
            processed_lines := st.successCount + 1
            total_lines := st.lineNumber + 1 } }
        lineNumber := st.lineNumber + 1
        successCount := st.successCount + 1 }
    | none =>
      -- FK violation branch: stage the row, count it as a success, and leave
      -- the job record untouched
      { db :=
          { st.db with
            staging := insertStaging st.db.staging (rowOf filePath (st.lineNumber + 1) p) }
        lineNumber := st.lineNumber + 1
        successCount := st.successCount + 1 }

/-- `first_part`: staged rows whose parent is already committed (a `NULL`
parent joins nothing). -/
def firstPart (db : DB) : List Row :=
  db.staging.filter fun s =>
    match s.parent_event_id with
    | some p => (rowIds db.historical).contains p
    | none => false

/-- `second_part`: staged rows whose parent is in `first_part`. -/
def secondPart (db : DB) : List Row :=
  db.staging.filter fun s =>
    match s.parent_event_id with
    | some p => (rowIds (firstPart db)).contains p
    | none => false

/-- The `UNION ALL` of the two promotion passes, in statement order. -/
def deferredBatch (db : DB) : List Row := firstPart db ++ secondPart db

/-- FK admissibility of one promoted row: its parent must be committed or in
the same statement's batch (immediate constraints are checked at the end of
the statement, so rows inserted by the same `INSERT ... SELECT` count). -/
def rowFkOk (db : DB) (r : Row) : Bool :=
  match r.parent_event_id with
  | some p => (rowIds db.historical).contains p || (rowIds (deferredBatch db)).contains p
  | none => true

/-- The promotion `INSERT ... SELECT` has no `ON CONFLICT` clause: it raises
(`none`) on any duplicate `event_id`, within the batch or against
`historical_events`, and on an unsatisfiable foreign key. -/
def deferredInsert (db : DB) : Option DB :=
  if (rowIds (deferredBatch db)).Nodup ∧
      (∀ i ∈ rowIds (deferredBatch db), i ∉ rowIds db.historical) ∧
      (∀ r ∈ deferredBatch db, rowFkOk db r = true) then
    some { db with historical := db.historical ++ deferredBatch db }
  else none

/-- Failure injection for the job state machine: the only operations before
the per-line loop whose failure the `catch` block distinguishes (via
`hasUpdatedStatusToProcessing`) are the initial status update and the stream
opening. -/
inductive FailMode where
  | noFail
  | failAtStatusUpdate (msg : String)
  | failAtStreamOpen (msg : String)
deriving DecidableEq, Repr

def fatalErrorString (msg : String) : String := "Fatal Error: " ++ msg

/-- The `catch` block: status `FAILED` when `hasUpdatedStatusToProcessing`
was already set, else `PENDING`; fatal error appended; end time stamped. -/
def catchFail (hasUpdated : Bool) (msg : String) (db : DB) : DB :=
  { db with job := { db.job with
      status := if hasUpdated then .FAILED else .PENDING,
      errors := db.job.errors ++ [fatalErrorString msg],
      end_time_stamped := true } }

/-- The initial `UPDATE ingestion_jobs SET status = 'PROCESSING'`. -/
def markProcessing (db : DB) : DB :=
  { db with job := { db.job with status := .PROCESSING } }

def runLoop (parseDate : String → Option Millis) (filePath : String)
    (lines : List String) (db : DB) : LoopState :=
  lines.foldl (stepLine parseDate filePath) ⟨db, 0, 0⟩

/-- The PostgreSQL message of a unique-key violation raised by the promotion
insert (its exact text is environment-supplied). -/
def duplicateKeyMessage : String := "duplicate key value violates unique constraint"

def processFile (parseDate : String → Option Millis) (failMode : FailMode)
    (filePath : String) (lines : List String) (db0 : DB) : DB :=
  match failMode with
  | .failAtStatusUpdate msg =>
    -- the initial status update itself raised: `hasUpdatedStatusToProcessing`
    -- is still false, so the catch block writes PENDING
    catchFail false msg db0
  | .failAtStreamOpen msg =>
    -- the status update succeeded, then opening/reading the stream raised
    catchFail true msg (markProcessing db0)
  | .noFail =>
    match deferredInsert (runLoop parseDate filePath lines (markProcessing db0)).db with
    | some db2 =>
      { db2 with job := { db2.job with
          status := .COMPLETED,
          total_lines := (runLoop parseDate filePath lines (markProcessing db0)).lineNumber,
          processed_lines := (runLoop parseDate filePath lines (markProcessing db0)).successCount,
          end_time_stamped := true } }
    | none =>
      catchFail true duplicateKeyMessage
        (runLoop parseDate filePath lines (markProcessing db0)).db

/-! ### Concrete ingestion fixtures -/
def constDate : String → Option Millis := fun _ => some 0

def freshJob : Job := ⟨.PENDING, 0, 0, 0, [], false⟩

def freshDB : DB := ⟨[], [], freshJob⟩

def uuidA : String := "aaaaaaaa-aaaa-aaaa-aaaa-aaaaaaaaaaaa"

def uuidB : String := "bbbbbbbb-bbbb-bbbb-bbbb-bbbbbbbbbbbb"

def uuidC : String := "cccccccc-cccc-cccc-cccc-cccccccccccc"

def uuidD : String := "dddddddd-dddd-dddd-dddd-dddddddddddd"

def uuidX : String := "99999999-9999-9999-9999-999999999999"

def uuidMissing : String := "12345678-1234-1234-1234-123456789012"

def mkLine (id name startIso endIso parent rv desc : String) : String :=
  String.intercalate "|" [id, name, startIso, endIso, parent, rv, desc]

def lineA : String := mkLine uuidA "A" "t0" "t0" "NULL" "rv" "d"

def lineB : String := mkLine uuidB "B" "t0" "t0" uuidA "rv" "d"

def lineC : String := mkLine uuidC "C" "t0" "t0" uuidB "rv" "d"

def lineD : String := mkLine uuidD "D" "t0" "t0" uuidC "rv" "d"

def lineX : String := mkLine uuidX "X" "t0" "t0" uuidMissing "rv" "d"

/-- The error strings produced by the per-line loop starting at a given
already-consumed line count. -/
def lineErrors (pd : String → Option Millis) : Nat → List String → List String
  | _, [] => []
  | k, l :: ls =>
    (match parseLine pd l with
     | .error msg => [lineErrorString (k + 1) msg]
     | .ok _ => []) ++ lineErrors pd (k + 1) ls

/-- A run in which every line parses and every insert succeeds (no parent is
missing at the moment its line is processed): the operational reading of
"no malformed lines and no forward references". -/
def cleanRun (pd : String → Option Millis) (fp : String) :
    List String → LoopState → Bool
  | [], _ => true
  | l :: ls, st =>
    (match parseLine pd l with
     | .error _ => false
     | .ok p => (insertHistorical st.db.historical (rowOf fp (st.lineNumber + 1) p)).isSome) &&
      cleanRun pd fp ls (stepLine pd fp st l)

/-- C3: the input line whose description contains the delimiter, so that the
raw split yields 8 parts; the parser rejects it with the field-count error
instead of rejoining the trailing fields into the description, for any date
parser (the check fires before dates are read). -/
def c3Line : String :=
  "aaaaaaaa-aaaa-aaaa-aaaa-aaaaaaaaaaaa|Name|2020-01-01|2020-01-02|NULL|rv|desc|more"

/-! ## Lemmas -/

/-! ### Lemmas about the sweep -/
lemma pairKey_comm (i j : Nat) : pairKey i j = pairKey j i := by
  unfold pairKey
  split <;> split <;> (try rfl) <;> (exact congrArg₂ Prod.mk (by omega) (by omega))

lemma pairKey_inj {i j a b : Nat} (h : pairKey i j = pairKey a b) :
    (i = a ∧ j = b) ∨ (i = b ∧ j = a) := by
  unfold pairKey at h
  split at h <;> split at h <;>
    (simp only [Prod.mk.injEq] at h) <;> omega

lemma overlapMinutes_comm (a b : AEvent) : overlapMinutes a b = overlapMinutes b a := by
  unfold overlapMinutes
  rw [min_comm, max_comm]

/-- `Math.floor(x / 60000)` is strictly positive exactly when `x` is at least
one full minute. -/
lemma fdiv_minute_pos_iff (x : Int) : 0 < Int.fdiv x 60000 ↔ 60000 ≤ x := by
  rw [Int.fdiv_eq_ediv _ (by norm_num : (0 : Int) ≤ 60000)]
  have h := Int.le_ediv_iff_mul_le (a := 1) (b := x) (c := 60000) (by norm_num)
  constructor
  · intro hx
    have := h.mp hx
    linarith
  · intro hx
    have := h.mpr (by linarith)
    exact this

lemma overlapMinutes_pos_iff (a b : AEvent) :
    0 < overlapMinutes a b ↔
      60000 ≤ min a.end_date b.end_date - max a.start_date b.start_date :=
  fdiv_minute_pos_iff _

lemma mem_eventPoints {p : SweepPoint} {events : List AEvent} :
    p ∈ eventPoints events ↔
      ∃ e ∈ events, p = ⟨e.start_date, true, e⟩ ∨ p = ⟨e.end_date, false, e⟩ := by
  unfold eventPoints
  simp [List.mem_flatMap]

lemma eventPoints_event_mem {p : SweepPoint} {events : List AEvent}
    (h : p ∈ eventPoints events) : p.event ∈ events := by
  rcases mem_eventPoints.mp h with ⟨e, he, h' | h'⟩ <;> (subst h'; exact he)

/-- The only point of `eventPoints events` with `isStart = false` and event `A`
is `A`'s end point. -/
lemma eventPoints_end_unique {p : SweepPoint} {events : List AEvent} {A : AEvent}
    (h : p ∈ eventPoints events) (hf : p.isStart = false) (he : p.event = A) :
    p = ⟨A.end_date, false, A⟩ := by
  rcases mem_eventPoints.mp h with ⟨e, _, h' | h'⟩ <;> subst h'
  · simp at hf
  · simp at he; subst he; rfl

lemma considerPair_active (e : AEvent) (st : SweepState) (a : AEvent) :
    (considerPair e st a).active = st.active := by
  unfold considerPair
  split <;> [rfl; (split <;> rfl)]

lemma considerFold_active (e : AEvent) (l : List AEvent) (st : SweepState) :
    (l.foldl (considerPair e) st).active = st.active := by
  induction l generalizing st with
  | nil => rfl
  | cons a t ih => rw [List.foldl_cons, ih, considerPair_active]

lemma foldl_processPoint_active (ps : List SweepPoint) (st : SweepState) :
    (ps.foldl processPoint st).active = ps.foldl activeStep st.active := by
  induction ps generalizing st with
  | nil => rfl
  | cons p t ih =>
    rw [List.foldl_cons, List.foldl_cons, ih]
    congr 1
    unfold processPoint activeStep
    split
    · simp [considerFold_active]
    · rfl

lemma mem_activeFold {A : AEvent} :
    ∀ (ps : List SweepPoint) (acc : List AEvent),
      (A ∈ acc ∨ ∃ p ∈ ps, p.isStart = true ∧ p.event = A) →
      (∀ p ∈ ps, p.isStart = false → p.event ≠ A) →
      A ∈ ps.foldl activeStep acc
  | [], acc, hin, _ => by
    rcases hin with h | ⟨p, hp, _⟩
    · exact h
    · exact absurd hp (List.not_mem_nil p)
  | p :: ps, acc, hin, hno => by
    rw [List.foldl_cons]
    have hno' : ∀ q ∈ ps, q.isStart = false → q.event ≠ A :=
      fun q hq => hno q (List.mem_cons_of_mem p hq)
    refine mem_activeFold ps _ ?_ hno'
    cases hps : p.isStart with
    | true =>
      have hacc : activeStep acc p = acc ++ [p.event] := by
        unfold activeStep; rw [hps]; simp
      rcases hin with h | ⟨q, hq, hqs, hqe⟩
      · exact Or.inl (by rw [hacc]; exact List.mem_append_left _ h)
      · rcases List.mem_cons.mp hq with rfl | hq'
        · exact Or.inl (by rw [hacc]; simp [hqe])
        · exact Or.inr ⟨q, hq', hqs, hqe⟩
    | false =>
      have hne : p.event ≠ A := hno p (List.mem_cons_self p ps) hps
      have hacc : activeStep acc p = acc.erase p.event := by
        unfold activeStep; rw [hps]; simp
      rcases hin with h | ⟨q, hq, hqs, hqe⟩
      · exact Or.inl (by rw [hacc]; exact (List.mem_erase_of_ne (Ne.symm hne)).mpr h)
      · rcases List.mem_cons.mp hq with rfl | hq'
        · simp [hps] at hqs
        · exact Or.inr ⟨q, hq', hqs, hqe⟩

lemma considerPair_reported_mono {k : Nat × Nat} {st : SweepState} (e a : AEvent)
    (h : k ∈ st.reported) : k ∈ (considerPair e st a).reported := by
  unfold considerPair
  split
  · exact h
  · split
    · exact List.mem_append_left _ h
    · exact h

lemma considerFold_reported_mono {k : Nat × Nat} (e : AEvent) (l : List AEvent)
    (st : SweepState) (h : k ∈ st.reported) :
    k ∈ (l.foldl (considerPair e) st).reported := by
  induction l generalizing st with
  | nil => exact h
  | cons a t ih => exact ih _ (considerPair_reported_mono e a h)

lemma processPoint_reported_mono {k : Nat × Nat} {st : SweepState} (p : SweepPoint)
    (h : k ∈ st.reported) : k ∈ (processPoint st p).reported := by
  unfold processPoint
  split
  · exact considerFold_reported_mono _ _ _ h
  · exact h

lemma foldl_processPoint_reported_mono {k : Nat × Nat} (ps : List SweepPoint)
    (st : SweepState) (h : k ∈ st.reported) :
    k ∈ (ps.foldl processPoint st).reported := by
  induction ps generalizing st with
  | nil => exact h
  | cons p t ih => exact ih _ (processPoint_reported_mono p h)

lemma considerFold_reported_of_mem (e : AEvent) :
    ∀ (l : List AEvent) (st : SweepState) (A : AEvent),
      A ∈ l → 0 < overlapMinutes e A →
      pairKey e.event_id A.event_id ∈ (l.foldl (considerPair e) st).reported
  | [], _, A, hA, _ => absurd hA (List.not_mem_nil A)
  | a :: l, st, A, hA, hpos => by
    rw [List.foldl_cons]
    rcases List.mem_cons.mp hA with rfl | hA'
    · refine considerFold_reported_mono e l _ ?_
      unfold considerPair
      split
      · assumption
      · exact List.mem_append_right _ (List.mem_singleton.mpr rfl)
    · exact considerFold_reported_of_mem e l _ A hA' hpos

lemma considerPair_keys (e a : AEvent) {st : SweepState}
    (h : st.reported = st.out.map entryKey) :
    (considerPair e st a).reported = (considerPair e st a).out.map entryKey := by
  unfold considerPair
  split
  · exact h
  · split
    · simp [h, entryKey]
    · exact h

lemma considerFold_keys (e : AEvent) (l : List AEvent) (st : SweepState)
    (h : st.reported = st.out.map entryKey) :
    (l.foldl (considerPair e) st).reported = (l.foldl (considerPair e) st).out.map entryKey := by
  induction l generalizing st with
  | nil => exact h
  | cons a t ih => exact ih _ (considerPair_keys e a h)

lemma processPoint_keys (p : SweepPoint) {st : SweepState}
    (h : st.reported = st.out.map entryKey) :
    (processPoint st p).reported = (processPoint st p).out.map entryKey := by
  unfold processPoint
  split
  · exact considerFold_keys _ _ _ h
  · exact h

lemma foldl_processPoint_keys (ps : List SweepPoint) (st : SweepState)
    (h : st.reported = st.out.map entryKey) :
    (ps.foldl processPoint st).reported = (ps.foldl processPoint st).out.map entryKey := by
  induction ps generalizing st with
  | nil => exact h
  | cons p t ih => exact ih _ (processPoint_keys p h)

lemma considerPair_nodup (e a : AEvent) {st : SweepState}
    (h : st.reported.Nodup) : (considerPair e st a).reported.Nodup := by
  unfold considerPair
  split
  · exact h
  · rename_i hnot
    split
    · rw [List.nodup_append]
      exact ⟨h, List.nodup_singleton _, List.disjoint_singleton.mpr hnot⟩
    · exact h

lemma considerFold_nodup (e : AEvent) (l : List AEvent) (st : SweepState)
    (h : st.reported.Nodup) : (l.foldl (considerPair e) st).reported.Nodup := by
  induction l generalizing st with
  | nil => exact h
  | cons a t ih => exact ih _ (considerPair_nodup e a h)

lemma processPoint_nodup (p : SweepPoint) {st : SweepState}
    (h : st.reported.Nodup) : (processPoint st p).reported.Nodup := by
  unfold processPoint
  split
  · exact considerFold_nodup _ _ _ h
  · exact h

lemma foldl_processPoint_nodup (ps : List SweepPoint) (st : SweepState)
    (h : st.reported.Nodup) : (ps.foldl processPoint st).reported.Nodup := by
  induction ps generalizing st with
  | nil => exact h
  | cons p t ih => exact ih _ (processPoint_nodup p h)

lemma considerPair_sound {events : List AEvent} (e a : AEvent) {st : SweepState}
    (he : e ∈ events) (ha : a ∈ events)
    (hout : ∀ en ∈ st.out, EntryOK events en) :
    ∀ en ∈ (considerPair e st a).out, EntryOK events en := by
  unfold considerPair
  split
  · exact hout
  · split
    · rename_i hpos
      intro en hen
      rcases List.mem_append.mp hen with h | h
      · exact hout en h
      · rw [List.mem_singleton.mp h]
        exact ⟨he, ha, hpos, rfl⟩
    · exact hout

lemma considerFold_sound {events : List AEvent} (e : AEvent) (l : List AEvent)
    (st : SweepState) (he : e ∈ events) (hl : ∀ a ∈ l, a ∈ events)
    (hout : ∀ en ∈ st.out, EntryOK events en) :
    ∀ en ∈ (l.foldl (considerPair e) st).out, EntryOK events en := by
  induction l generalizing st with
  | nil => exact hout
  | cons a t ih =>
    exact ih _ (fun x hx => hl x (List.mem_cons_of_mem a hx))
      (considerPair_sound e a he (hl a (List.mem_cons_self a t)) hout)

lemma processPoint_sound {events : List AEvent} (p : SweepPoint) {st : SweepState}
    (hp : p.event ∈ events) (hactive : ∀ a ∈ st.active, a ∈ events)
    (hout : ∀ en ∈ st.out, EntryOK events en) :
    (∀ a ∈ (processPoint st p).active, a ∈ events) ∧
      (∀ en ∈ (processPoint st p).out, EntryOK events en) := by
  unfold processPoint
  split
  · constructor
    · intro a ha
      rw [considerFold_active] at ha
      rcases List.mem_append.mp ha with h | h
      · exact hactive a h
      · rw [List.mem_singleton.mp h]; exact hp
    · exact considerFold_sound p.event st.active st hp hactive hout
  · exact ⟨fun a ha => hactive a (List.mem_of_mem_erase ha), hout⟩

lemma foldl_processPoint_sound {events : List AEvent} (ps : List SweepPoint)
    (st : SweepState) (hp : ∀ p ∈ ps, p.event ∈ events)
    (hactive : ∀ a ∈ st.active, a ∈ events)
    (hout : ∀ en ∈ st.out, EntryOK events en) :
    ∀ en ∈ (ps.foldl processPoint st).out, EntryOK events en := by
  induction ps generalizing st with
  | nil => exact hout
  | cons p t ih =>
    have h := processPoint_sound p (hp p (List.mem_cons_self p t)) hactive hout
    exact ih _ (fun q hq => hp q (List.mem_cons_of_mem p hq)) h.1 h.2

/-- Splitting a list at the first element satisfying a predicate. -/
lemma exists_first_split {α : Type} (q : α → Bool) :
    ∀ (l : List α) (x : α), x ∈ l → q x = true →
      ∃ P p S, l = P ++ p :: S ∧ q p = true ∧ ∀ y ∈ P, q y = false
  | [], x, hx, _ => absurd hx (List.not_mem_nil x)
  | a :: l, x, hx, hqx => by
    cases hqa : q a with
    | true => exact ⟨[], a, l, rfl, hqa, fun y hy => absurd hy (List.not_mem_nil y)⟩
    | false =>
      have hx' : x ∈ l := by
        rcases List.mem_cons.mp hx with rfl | h
        · rw [hqx] at hqa; cases hqa
        · exact h
      obtain ⟨P, p, S, hl, hqp, hP⟩ := exists_first_split q l x hx' hqx
      refine ⟨a :: P, p, S, by rw [hl]; rfl, hqp, ?_⟩
      intro y hy
      rcases List.mem_cons.mp hy with rfl | h
      · exact hqa
      · exact hP y h

/-- The only point of `eventPoints events` with `isStart = true` and event `A`
is `A`'s start point. -/
lemma eventPoints_start_unique {p : SweepPoint} {events : List AEvent} {A : AEvent}
    (h : p ∈ eventPoints events) (ht : p.isStart = true) (he : p.event = A) :
    p = ⟨A.start_date, true, A⟩ := by
  rcases mem_eventPoints.mp h with ⟨e, _, h' | h'⟩ <;> subst h'
  · simp at he; subst he; rfl
  · simp at ht

lemma sortPoints_sorted (ps : List SweepPoint) : List.Sorted pointLE (sortPoints ps) :=
  List.sorted_insertionSort pointLE ps

lemma mem_sortPoints {p : SweepPoint} {ps : List SweepPoint} :
    p ∈ sortPoints ps ↔ p ∈ ps :=
  (List.perm_insertionSort pointLE ps).mem_iff

lemma processPoint_start_reported (st : SweepState) (t : Millis) (e : AEvent) :
    (processPoint st ⟨t, true, e⟩).reported =
      (st.active.foldl (considerPair e) st).reported := by
  unfold processPoint
  rfl

/-- If the point stream splits at `E`'s start point, with a start point of `F`
and no end point of `F` in the prefix, then the sweep reports the pair. -/
lemma key_reported_of_split {E F : AEvent} {Q S : List SweepPoint}
    (hEF : 0 < overlapMinutes E F)
    (hFstart : ∃ p ∈ Q, p.isStart = true ∧ p.event = F)
    (hFnoend : ∀ p ∈ Q, p.isStart = false → p.event ≠ F) :
    pairKey E.event_id F.event_id ∈
      ((Q ++ ⟨E.start_date, true, E⟩ :: S).foldl processPoint ⟨[], [], []⟩).reported := by
  rw [List.foldl_append, List.foldl_cons]
  apply foldl_processPoint_reported_mono
  have hFactive : F ∈ (Q.foldl processPoint ⟨[], [], []⟩).active := by
    rw [foldl_processPoint_active]
    exact mem_activeFold Q [] (Or.inr hFstart) hFnoend
  rw [processPoint_start_reported]
  exact considerFold_reported_of_mem E _ _ F hFactive hEF

/-- The pair key is reported when, in the sorted point list, `F`'s start point
precedes `E`'s start point. -/
lemma key_reported_of_decomp (events : List AEvent) (E F : AEvent)
    (hpos : 0 < overlapMinutes E F) (Q S : List SweepPoint)
    (hdecomp : sortPoints (eventPoints events) = Q ++ ⟨E.start_date, true, E⟩ :: S)
    (hFstart : (⟨F.start_date, true, F⟩ : SweepPoint) ∈ Q) :
    pairKey E.event_id F.event_id ∈ (sweepAll events).reported := by
  unfold sweepAll
  rw [hdecomp]
  apply key_reported_of_split hpos ⟨⟨F.start_date, true, F⟩, hFstart, rfl, rfl⟩
  intro p hp hpf hpe
  have hpL : p ∈ eventPoints events := by
    refine mem_sortPoints.mp ?_
    rw [hdecomp]
    exact List.mem_append_left _ hp
  have hpeq : p = ⟨F.end_date, false, F⟩ := eventPoints_end_unique hpL hpf hpe
  have hsorted := sortPoints_sorted (eventPoints events)
  rw [hdecomp, List.Sorted, List.pairwise_append] at hsorted
  have hle : pointLE p ⟨E.start_date, true, E⟩ :=
    hsorted.2.2 p hp _ (List.mem_cons_self _ _)
  rw [hpeq] at hle
  unfold pointLE pointRank at hle
  simp only at hle
  have hlt : F.end_date < E.start_date := by
    rcases hle with h | ⟨_, h⟩
    · exact h
    · simp at h
  have hge := (overlapMinutes_pos_iff E F).mp hpos
  have h1 : min E.end_date F.end_date ≤ F.end_date := min_le_right _ _
  have h2 : E.start_date ≤ max E.start_date F.start_date := le_max_left _ _
  linarith

/-- Completeness of the sweep: every strictly positively overlapping pair of
distinct input events gets its key reported. -/
lemma key_mem_reported (events : List AEvent) (A B : AEvent)
    (hA : A ∈ events) (hB : B ∈ events) (hne : A ≠ B)
    (hpos : 0 < overlapMinutes A B) :
    pairKey A.event_id B.event_id ∈ (sweepAll events).reported := by
  have hAL : (⟨A.start_date, true, A⟩ : SweepPoint) ∈ sortPoints (eventPoints events) :=
    mem_sortPoints.mpr (mem_eventPoints.mpr ⟨A, hA, Or.inl rfl⟩)
  have hBL : (⟨B.start_date, true, B⟩ : SweepPoint) ∈ sortPoints (eventPoints events) :=
    mem_sortPoints.mpr (mem_eventPoints.mpr ⟨B, hB, Or.inl rfl⟩)
  obtain ⟨P, p, S, hsplit, hqp, hP⟩ :=
    exists_first_split (fun p => p.isStart && decide (p.event = A ∨ p.event = B))
      (sortPoints (eventPoints events)) ⟨A.start_date, true, A⟩ hAL (by simp)
  simp only [Bool.and_eq_true, decide_eq_true_eq] at hqp
  have hpmem : p ∈ eventPoints events := by
    refine mem_sortPoints.mp ?_
    rw [hsplit]
    exact List.mem_append_right _ (List.mem_cons_self _ _)
  rcases hqp.2 with hpa | hpb
  · -- the first start among A, B is A's: B's start point lies after it
    have hpeq : p = ⟨A.start_date, true, A⟩ := eventPoints_start_unique hpmem hqp.1 hpa
    subst hpeq
    have hBnotP : (⟨B.start_date, true, B⟩ : SweepPoint) ∉ P := by
      intro hmem
      have := hP _ hmem
      simp at this
    have hBS : (⟨B.start_date, true, B⟩ : SweepPoint) ∈ S := by
      rw [hsplit] at hBL
      rcases List.mem_append.mp hBL with h | h
      · exact absurd h hBnotP
      · rcases List.mem_cons.mp h with h' | h'
        · simp only [SweepPoint.mk.injEq] at h'
          exact absurd h'.2.2.symm hne
        · exact h'
    obtain ⟨P2, S2, hS⟩ := List.append_of_mem hBS
    have hdecomp : sortPoints (eventPoints events) =
        (P ++ ⟨A.start_date, true, A⟩ :: P2) ++
          (⟨B.start_date, true, B⟩ : SweepPoint) :: S2 := by
      rw [hsplit, hS]
      simp
    have hkey := key_reported_of_decomp events B A
      (by rw [overlapMinutes_comm]; exact hpos) _ _ hdecomp
      (List.mem_append_right _ (List.mem_cons_self _ _))
    rw [pairKey_comm]
    exact hkey
  · -- the first start among A, B is B's: A's start point lies after it
    have hpeq : p = ⟨B.start_date, true, B⟩ := eventPoints_start_unique hpmem hqp.1 hpb
    subst hpeq
    have hAnotP : (⟨A.start_date, true, A⟩ : SweepPoint) ∉ P := by
      intro hmem
      have := hP _ hmem
      simp at this
    have hAS : (⟨A.start_date, true, A⟩ : SweepPoint) ∈ S := by
      rw [hsplit] at hAL
      rcases List.mem_append.mp hAL with h | h
      · exact absurd h hAnotP
      · rcases List.mem_cons.mp h with h' | h'
        · simp only [SweepPoint.mk.injEq] at h'
          exact absurd h'.2.2 hne
        · exact h'
    obtain ⟨P2, S2, hS⟩ := List.append_of_mem hAS
    have hdecomp : sortPoints (eventPoints events) =
        (P ++ ⟨B.start_date, true, B⟩ :: P2) ++
          (⟨A.start_date, true, A⟩ : SweepPoint) :: S2 := by
      rw [hsplit, hS]
      simp
    exact key_reported_of_decomp events A B hpos _ _ hdecomp
      (List.mem_append_right _ (List.mem_cons_self _ _))

/-- `count` is `1` on a duplicate-free list containing the element (stated for
an arbitrary lawful `BEq` to match the instance used by `List.count`). -/
lemma count_eq_one_of_nodup_mem {α : Type} [BEq α] [LawfulBEq α] :
    ∀ {l : List α} {a : α}, l.Nodup → a ∈ l → l.count a = 1
  | [], a, _, ha => absurd ha (List.not_mem_nil a)
  | b :: l, a, hnd, ha => by
    rw [List.count_cons]
    rcases List.mem_cons.mp ha with rfl | h
    · rw [List.count_eq_zero.mpr (List.nodup_cons.mp hnd).1]
      simp
    · have hba : ¬ b = a := by
        intro hba'
        subst hba'
        exact (List.nodup_cons.mp hnd).1 h
      rw [count_eq_one_of_nodup_mem (List.nodup_cons.mp hnd).2 h]
      simp [hba, beq_eq_false_iff_ne, Ne, fun h' : a = b => hba h'.symm]

lemma two_le_length_of_mem_ne {α : Type} {l : List α} {a b : α}
    (ha : a ∈ l) (hb : b ∈ l) (hne : a ≠ b) : 2 ≤ l.length := by
  rcases l with _ | ⟨x, _ | ⟨y, t⟩⟩
  · exact absurd ha (List.not_mem_nil a)
  · rw [List.mem_singleton.mp ha, List.mem_singleton.mp hb] at hne
    exact absurd rfl hne
  · rw [List.length_cons, List.length_cons]
    omega

/-- The characterization behind the overlap-detector claim: a pair of distinct
events is reported exactly once when its floored overlap is strictly positive
and not at all otherwise. -/
lemma overlap_count_characterization (events : List AEvent) (A B : AEvent)
    (hnodup : (events.map AEvent.event_id).Nodup) (hA : A ∈ events) (hB : B ∈ events)
    (hne : A.event_id ≠ B.event_id) :
    ((findOverlappingEvents events).map entryKey).count (pairKey A.event_id B.event_id)
      = if 0 < overlapMinutes A B then 1 else 0 := by
  have hABne : A ≠ B := fun h => hne (h ▸ rfl)
  have hlen : ¬ events.length < 2 := not_lt.mpr (two_le_length_of_mem_ne hA hB hABne)
  unfold findOverlappingEvents
  rw [if_neg hlen]
  by_cases hpos : 0 < overlapMinutes A B
  · rw [if_pos hpos]
    have hkey := key_mem_reported events A B hA hB hABne hpos
    have hkeys : (sweepAll events).reported = (sweepAll events).out.map entryKey :=
      foldl_processPoint_keys _ _ rfl
    have hnd : (sweepAll events).reported.Nodup :=
      foldl_processPoint_nodup _ _ List.nodup_nil
    rw [hkeys] at hkey hnd
    exact count_eq_one_of_nodup_mem hnd hkey
  · rw [if_neg hpos, List.count_eq_zero]
    intro hmem
    obtain ⟨en, hen, hkeq⟩ := List.mem_map.mp hmem
    have hok : EntryOK events en := by
      refine foldl_processPoint_sound _ ⟨[], [], []⟩ ?_ ?_ ?_ en hen
      · intro q hq
        exact eventPoints_event_mem (mem_sortPoints.mp hq)
      · intro a ha
        exact absurd ha (List.not_mem_nil a)
      · intro x hx
        exact absurd hx (List.not_mem_nil x)
    obtain ⟨h1, h2, hposen, _⟩ := hok
    rcases pairKey_inj hkeq with ⟨hia, hib⟩ | ⟨hia, hib⟩
    · rw [List.inj_on_of_nodup_map hnodup h1 hA hia,
        List.inj_on_of_nodup_map hnodup h2 hB hib] at hposen
      exact hpos hposen
    · rw [List.inj_on_of_nodup_map hnodup h1 hB hia,
        List.inj_on_of_nodup_map hnodup h2 hA hib, overlapMinutes_comm] at hposen
      exact hpos hposen

lemma le_fdiv_minute_iff (m x : Int) : m ≤ Int.fdiv x 60000 ↔ m * 60000 ≤ x := by
  rw [Int.fdiv_eq_ediv _ (by norm_num : (0 : Int) ≤ 60000)]
  exact Int.le_ediv_iff_mul_le (by norm_num)

lemma gapStep_duration (best : GapRecord) (pr : AEvent × AEvent) :
    (gapStep best pr).durationMinutes =
      max best.durationMinutes (Int.fdiv (gapMs pr) 60000) := by
  unfold gapStep
  split
  · rename_i h
    have hle : best.durationMinutes ≤ Int.fdiv (gapMs pr) 60000 :=
      (le_fdiv_minute_iff _ _).mpr (le_of_lt h)
    rw [max_eq_right hle]
    rfl
  · rename_i h
    have hle : Int.fdiv (gapMs pr) 60000 ≤ best.durationMinutes := by
      by_contra hc
      push_neg at hc
      have h1 : best.durationMinutes + 1 ≤ Int.fdiv (gapMs pr) 60000 := hc
      have h2 := (le_fdiv_minute_iff _ _).mp h1
      exact h (by linarith)
    rw [max_eq_left hle]

lemma gapFold_duration (l : List (AEvent × AEvent)) (best : GapRecord) :
    (l.foldl gapStep best).durationMinutes =
      l.foldl (fun m pr => max m (Int.fdiv (gapMs pr) 60000)) best.durationMinutes := by
  induction l generalizing best with
  | nil => rfl
  | cons pr t ih =>
    rw [List.foldl_cons, List.foldl_cons, ih, gapStep_duration]

lemma gapFold_shape (C : GapRecord → Prop) :
    ∀ (l : List (AEvent × AEvent)) (best : GapRecord),
      (∀ pr ∈ l, C (mkGapRecord pr)) →
      (0 < best.durationMinutes → C best) →
      0 < (l.foldl gapStep best).durationMinutes → C (l.foldl gapStep best)
  | [], _, _, hbase, hpos => hbase hpos
  | pr :: t, best, hpr, hbase, hpos => by
    rw [List.foldl_cons] at hpos ⊢
    refine gapFold_shape C t (gapStep best pr)
      (fun q hq => hpr q (List.mem_cons_of_mem pr hq)) ?_ hpos
    intro hp
    unfold gapStep at hp ⊢
    by_cases h : best.durationMinutes * 60000 < gapMs pr
    · rw [if_pos h]
      exact hpr pr (List.mem_cons_self pr t)
    · rw [if_neg h]
      rw [if_neg h] at hp
      exact hbase hp

lemma findTemporalGaps_duration (events : List AEvent) :
    ((consecutivePairs events).foldl gapStep initGapRecord).durationMinutes =
      maxGapMinutes events :=
  gapFold_duration _ _

/-! ### Lemmas about the ingestion loop -/
lemma stepLine_lineNumber (pd : String → Option Millis) (fp : String)
    (st : LoopState) (line : String) :
    (stepLine pd fp st line).lineNumber = st.lineNumber + 1 := by
  unfold stepLine
  split
  · rfl
  · split <;> rfl

lemma stepLine_sum (pd : String → Option Millis) (fp : String)
    (st : LoopState) (line : String) :
    (stepLine pd fp st line).successCount + (stepLine pd fp st line).db.job.error_lines =
      st.successCount + st.db.job.error_lines + 1 := by
  unfold stepLine
  split
  · show st.successCount + (st.db.job.error_lines + 1) = _
    omega
  · split
    · show st.successCount + 1 + st.db.job.error_lines = _
      omega
    · show st.successCount + 1 + st.db.job.error_lines = _
      omega

lemma runLoop_lineNumber (pd : String → Option Millis) (fp : String) :
    ∀ (lines : List String) (st : LoopState),
      (lines.foldl (stepLine pd fp) st).lineNumber = st.lineNumber + lines.length
  | [], st => rfl
  | l :: ls, st => by
    rw [List.foldl_cons, runLoop_lineNumber pd fp ls, stepLine_lineNumber,
      List.length_cons]
    omega

lemma runLoop_sum (pd : String → Option Millis) (fp : String) :
    ∀ (lines : List String) (st : LoopState),
      (lines.foldl (stepLine pd fp) st).successCount +
          (lines.foldl (stepLine pd fp) st).db.job.error_lines =
        st.successCount + st.db.job.error_lines + lines.length
  | [], st => rfl
  | l :: ls, st => by
    rw [List.foldl_cons, runLoop_sum pd fp ls, stepLine_sum, List.length_cons]
    omega

lemma stepLine_errors (pd : String → Option Millis) (fp : String)
    (st : LoopState) (line : String) :
    (stepLine pd fp st line).db.job.errors =
      st.db.job.errors ++
        (match parseLine pd line with
         | .error msg => [lineErrorString (st.lineNumber + 1) msg]
         | .ok _ => []) := by
  unfold stepLine
  split
  · rfl
  · split <;> simp

lemma stepLine_error_lines (pd : String → Option Millis) (fp : String)
    (st : LoopState) (line : String) :
    (stepLine pd fp st line).db.job.error_lines =
      st.db.job.error_lines +
        (match parseLine pd line with
         | .error _ => 1
         | .ok _ => 0) := by
  unfold stepLine
  split
  · rfl
  · split <;> rfl

lemma lineErrors_cons (pd : String → Option Millis) (k : Nat) (l : String)
    (ls : List String) :
    lineErrors pd k (l :: ls) =
      (match parseLine pd l with
       | .error msg => [lineErrorString (k + 1) msg]
       | .ok _ => []) ++ lineErrors pd (k + 1) ls := rfl

lemma runLoop_errors (pd : String → Option Millis) (fp : String) :
    ∀ (lines : List String) (st : LoopState),
      (lines.foldl (stepLine pd fp) st).db.job.errors =
        st.db.job.errors ++ lineErrors pd st.lineNumber lines
  | [], st => by simp [lineErrors]
  | l :: ls, st => by
    rw [List.foldl_cons, runLoop_errors pd fp ls, stepLine_errors,
      stepLine_lineNumber, lineErrors_cons, List.append_assoc]

lemma runLoop_error_lines (pd : String → Option Millis) (fp : String) :
    ∀ (lines : List String) (st : LoopState),
      (lines.foldl (stepLine pd fp) st).db.job.error_lines =
        st.db.job.error_lines + (lineErrors pd st.lineNumber lines).length
  | [], st => by simp [lineErrors]
  | l :: ls, st => by
    rw [List.foldl_cons, runLoop_error_lines pd fp ls, stepLine_error_lines,
      stepLine_lineNumber, lineErrors_cons, List.length_append]
    cases hpl : parseLine pd l with
    | error m =>
      simp [hpl]
      omega
    | ok p => simp [hpl]

/-- Promotion with an empty staging table is a successful no-op. -/
lemma deferredInsert_empty {db : DB} (h : db.staging = []) :
    deferredInsert db = some db := by
  have hb : deferredBatch db = [] := by
    unfold deferredBatch firstPart secondPart
    rw [h]
    rfl
  have hc : (rowIds ([] : List Row)).Nodup ∧
      (∀ i ∈ rowIds ([] : List Row), i ∉ rowIds db.historical) ∧
      (∀ r ∈ ([] : List Row), rowFkOk db r = true) :=
    ⟨by simp [rowIds], by simp [rowIds], by simp⟩
  unfold deferredInsert
  rw [hb, if_pos hc, List.append_nil]

lemma deferredInsert_job {db db' : DB} (h : deferredInsert db = some db') :
    db'.job = db.job ∧ db'.staging = db.staging ∧
      db'.historical = db.historical ++ deferredBatch db := by
  unfold deferredInsert at h
  split at h
  · cases h
    exact ⟨rfl, rfl, rfl⟩
  · cases h

lemma cleanRun_cons (pd : String → Option Millis) (fp : String) (l : String)
    (ls : List String) (st : LoopState) :
    cleanRun pd fp (l :: ls) st =
      ((match parseLine pd l with
        | .error _ => false
        | .ok p =>
          (insertHistorical st.db.historical (rowOf fp (st.lineNumber + 1) p)).isSome) &&
        cleanRun pd fp ls (stepLine pd fp st l)) := rfl

lemma stepLine_ok_some {pd : String → Option Millis} {fp : String}
    {st : LoopState} {line : String} {p : Parsed} {hist' : List Row}
    (hpl : parseLine pd line = .ok p)
    (hins : insertHistorical st.db.historical (rowOf fp (st.lineNumber + 1) p) = some hist') :
    (stepLine pd fp st line).db.staging = st.db.staging ∧
    (stepLine pd fp st line).db.job.error_lines = st.db.job.error_lines ∧
    (stepLine pd fp st line).db.job.errors = st.db.job.errors ∧
    (stepLine pd fp st line).successCount = st.successCount + 1 ∧
    (stepLine pd fp st line).db.historical = hist' := by
  unfold stepLine
  simp [hpl, hins]

lemma cleanRun_fold (pd : String → Option Millis) (fp : String) :
    ∀ (lines : List String) (st : LoopState), cleanRun pd fp lines st = true →
      (lines.foldl (stepLine pd fp) st).db.staging = st.db.staging ∧
      (lines.foldl (stepLine pd fp) st).db.job.error_lines = st.db.job.error_lines ∧
      (lines.foldl (stepLine pd fp) st).db.job.errors = st.db.job.errors ∧
      (lines.foldl (stepLine pd fp) st).successCount = st.successCount + lines.length
  | [], st, _ => ⟨rfl, rfl, rfl, rfl⟩
  | l :: ls, st, h => by
    rw [cleanRun_cons, Bool.and_eq_true] at h
    obtain ⟨h1, h2⟩ := h
    have hrest := cleanRun_fold pd fp ls (stepLine pd fp st l) h2
    rw [List.foldl_cons]
    cases hpl : parseLine pd l with
    | error m =>
      rw [hpl] at h1
      cases h1
    | ok p =>
      rw [hpl] at h1
      obtain ⟨hist', hins⟩ := Option.isSome_iff_exists.mp h1
      obtain ⟨e1, e2, e3, e4, _⟩ := stepLine_ok_some hpl hins
      refine ⟨hrest.1.trans e1, hrest.2.1.trans e2, hrest.2.2.1.trans e3, ?_⟩
      rw [hrest.2.2.2, e4, List.length_cons]
      omega

lemma processFile_noFail_some {pd : String → Option Millis} {fp : String}
    {lines : List String} {db0 db2 : DB}
    (h : deferredInsert (runLoop pd fp lines (markProcessing db0)).db = some db2) :
    processFile pd .noFail fp lines db0 =
      { db2 with job := { db2.job with
          status := .COMPLETED
          total_lines := (runLoop pd fp lines (markProcessing db0)).lineNumber
          processed_lines := (runLoop pd fp lines (markProcessing db0)).successCount
          end_time_stamped := true } } := by
  unfold processFile
  rw [h]

lemma processFile_noFail_none {pd : String → Option Millis} {fp : String}
    {lines : List String} {db0 : DB}
    (h : deferredInsert (runLoop pd fp lines (markProcessing db0)).db = none) :
    processFile pd .noFail fp lines db0 =
      catchFail true duplicateKeyMessage
        (runLoop pd fp lines (markProcessing db0)).db := by
  unfold processFile
  rw [h]

lemma rowIds_append (a b : List Row) : rowIds (a ++ b) = rowIds a ++ rowIds b :=
  List.map_append _ _ _

/-- Membership in `first_part`: a staged row whose parent is committed. -/
lemma mem_firstPart {db : DB} {r : Row} {p : String} (hr : r ∈ db.staging)
    (hp : r.parent_event_id = some p) (hmem : p ∈ rowIds db.historical) :
    r ∈ firstPart db := by
  unfold firstPart
  refine List.mem_filter.mpr ⟨hr, ?_⟩
  rw [hp]
  exact List.elem_eq_true_of_mem hmem

/-- Membership in `second_part`: a staged row whose parent is in `first_part`. -/
lemma mem_secondPart {db : DB} {r : Row} {p : String} (hr : r ∈ db.staging)
    (hp : r.parent_event_id = some p) (hmem : p ∈ rowIds (firstPart db)) :
    r ∈ secondPart db := by
  unfold secondPart
  refine List.mem_filter.mpr ⟨hr, ?_⟩
  rw [hp]
  exact List.elem_eq_true_of_mem hmem

/-! ## Claim theorems -/

/-- C5: for every pair of qualifying events in a window, the overlap detector
reports the pair exactly once if and only if their overlap, floored to whole
minutes, is strictly positive; in particular `A[00:00,00:30]` and
`B[00:20,00:50]` yield one pair with `overlap_duration_minutes = 10`, while
`A[00:00,00:10]` and `B[00:10,00:20]`, touching only at a boundary, yield zero
pairs. -/
theorem claim_C5_overlap_detector :
    (∀ (events : List AEvent) (A B : AEvent),
        (events.map AEvent.event_id).Nodup → A ∈ events → B ∈ events →
        A.event_id ≠ B.event_id →
        ((findOverlappingEvents events).map entryKey).count
            (pairKey A.event_id B.event_id)
          = if 0 < overlapMinutes A B then 1 else 0) ∧
    findOverlappingEvents
        [⟨1, "A", 0, 1800000⟩, ⟨2, "B", 1200000, 3000000⟩] =
      [⟨⟨2, "B", 1200000, 3000000⟩, ⟨1, "A", 0, 1800000⟩, 10⟩] ∧
    findOverlappingEvents
        [⟨1, "A", 0, 600000⟩, ⟨2, "B", 600000, 1200000⟩] = [] := by
  refine ⟨?_, by decide, by decide⟩
  intro events A B hnodup hA hB hne
  exact overlap_count_characterization events A B hnodup hA hB hne

/-- Witness for C5: the universal part applied at the spec's 30-minute /
50-minute example, where the overlap is 10 minutes and the pair is reported
exactly once. -/
theorem claim_C5_overlap_detector_witness :
    ((findOverlappingEvents
        [⟨1, "A", 0, 1800000⟩, ⟨2, "B", 1200000, 3000000⟩]).map entryKey).count
      (pairKey 1 2) = 1 := by
  have h := claim_C5_overlap_detector.1
    [⟨1, "A", 0, 1800000⟩, ⟨2, "B", 1200000, 3000000⟩]
    ⟨1, "A", 0, 1800000⟩ ⟨2, "B", 1200000, 3000000⟩
    (by decide) (by decide) (by decide) (by decide)
  rw [if_pos (by decide)] at h
  exact h

/-- C6 counterexample: two events separated by a strictly positive 30-second
gap, for which the finder nevertheless returns `largestGap = null`, contrary
to the claim that every strictly positive maximum gap is reported. -/
theorem claim_C6_gap_finder_counterexample :
    0 < gapMs (⟨1, "A", 0, 0⟩, ⟨2, "B", 30000, 60000⟩) ∧
    findTemporalGaps [⟨1, "A", 0, 0⟩, ⟨2, "B", 30000, 60000⟩] =
      ⟨none, noGapMessage⟩ :=
  ⟨by decide, by decide⟩

/-- C6 (amended): with at least 2 events the gap finder returns a consecutive
pair whose floored-minute gap equals the maximum floored-minute gap over all
consecutive pairs, together with its floored duration, bounding instants and
event summaries, provided that maximum is at least one minute; when every gap
floors to zero or below (even if strictly positive in milliseconds), or fewer
than 2 events qualify, it returns `largestGap = null` with the no-gap message.
In particular `A[t,t+10m]`, `B[t+30m,t+40m]` yields `durationMinutes = 20`. -/
theorem claim_C6_gap_finder :
    (∀ events : List AEvent, events.length < 2 →
        findTemporalGaps events = ⟨none, noGapMessage⟩) ∧
    (∀ events : List AEvent, maxGapMinutes events ≤ 0 →
        findTemporalGaps events = ⟨none, noGapMessage⟩) ∧
    (∀ events : List AEvent, 2 ≤ events.length → 0 < maxGapMinutes events →
        ∃ pr ∈ consecutivePairs events,
          Int.fdiv (gapMs pr) 60000 = maxGapMinutes events ∧
          findTemporalGaps events = ⟨some (mkGapRecord pr), gapFoundMessage⟩) ∧
    findTemporalGaps [⟨1, "A", 0, 600000⟩, ⟨2, "B", 1800000, 2400000⟩] =
      ⟨some ⟨20, some 600000, some 1800000, some ⟨1, "A", 600000⟩,
        some ⟨2, "B", 1800000⟩⟩, gapFoundMessage⟩ := by
  refine ⟨?_, ?_, ?_, by decide⟩
  · intro events h
    unfold findTemporalGaps
    rw [if_pos h]
  · intro events h
    unfold findTemporalGaps
    by_cases hlen : events.length < 2
    · rw [if_pos hlen]
    · rw [if_neg hlen, if_neg]
      rw [findTemporalGaps_duration]
      omega
  · intro events hlen hpos
    have hdm := findTemporalGaps_duration events
    have hpos' :
        0 < ((consecutivePairs events).foldl gapStep initGapRecord).durationMinutes := by
      rw [hdm]; exact hpos
    obtain ⟨pr, hmem, heq⟩ :=
      gapFold_shape (fun b => ∃ pr ∈ consecutivePairs events, b = mkGapRecord pr)
        (consecutivePairs events) initGapRecord (fun pr hpr => ⟨pr, hpr, rfl⟩)
        (fun h0 => absurd h0 (by decide)) hpos'
    refine ⟨pr, hmem, ?_, ?_⟩
    · rw [← hdm, heq]
      rfl
    · unfold findTemporalGaps
      rw [if_neg (not_lt.mpr hlen), if_pos hpos', heq]

/-- Witness for C6: the fewer-than-2-events branch applied to a one-event
list. -/
theorem claim_C6_gap_finder_witness :
    findTemporalGaps [⟨1, "A", 0, 600000⟩] = ⟨none, noGapMessage⟩ :=
  claim_C6_gap_finder.1 [⟨1, "A", 0, 600000⟩] (by decide)

/-- C7: the influence path finder initializes the source's distance to the
source's own `duration_minutes` (not zero) while every other node starts at
infinity; on the tree `A(30m) -> B(10m) -> C(5m)` the call `findPath(A, C)`
returns the path `[A, B, C]` with `totalDurationMinutes = 45`; on the
branching tree `A(10m) -> {B(5m), C(7m)}, C -> D(3m)` the call
`findPath(A, D)` returns the unique (hence minimum cumulative-duration) path
`[A, C, D]` with total `20`; and for any target absent from the source's
descendant subtree it returns an empty path, zero total duration, and the
no-path message. -/
theorem claim_C7_influence_path :
    (∀ (events : List PEvent) (source : Nat) (n : PathNode),
        mapLookup events source = some n →
        initDistances events source source = (n.duration_minutes : WithTop Int) ∧
          ∀ j : Nat, j ≠ source → initDistances events source j = ⊤) ∧
    findEventInfluencePath
        [⟨1, "A", 30, none⟩, ⟨2, "B", 10, some 1⟩, ⟨3, "C", 5, some 2⟩] 1 3 =
      .result 1 3 [⟨1, "A", 30⟩, ⟨2, "B", 10⟩, ⟨3, "C", 5⟩]
        ((45 : Int) : WithTop Int) pathFoundMessage ∧
    findEventInfluencePath
        [⟨1, "A", 10, none⟩, ⟨2, "B", 5, some 1⟩, ⟨3, "C", 7, some 1⟩,
          ⟨4, "D", 3, some 3⟩] 1 4 =
      .result 1 4 [⟨1, "A", 10⟩, ⟨3, "C", 7⟩, ⟨4, "D", 3⟩]
        ((20 : Int) : WithTop Int) pathFoundMessage ∧
    (∀ (events : List PEvent) (source target : Nat),
        events ≠ [] → mapLookup events target = none →
        findEventInfluencePath events source target =
          .result source target [] 0 noPathMessage) := by
  refine ⟨?_, by decide, by decide, ?_⟩
  · intro events source n h
    unfold initDistances
    rw [h]
    constructor
    · unfold setDist
      simp
    · intro j hj
      unfold setDist
      simp [hj]
  · intro events source target hne hnone
    unfold findEventInfluencePath
    rw [if_neg (by simp [List.isEmpty_iff, hne]), if_pos (by rw [hnone]; rfl)]

/-- Witness for C7: the absent-target branch at a concrete one-node tree. -/
theorem claim_C7_influence_path_witness :
    findEventInfluencePath [⟨1, "A", 30, none⟩] 1 99 =
      .result 1 99 [] 0 noPathMessage :=
  claim_C7_influence_path.2.2.2 [⟨1, "A", 30, none⟩] 1 99 (by decide) (by decide)

/-- C8: for every input file in which no line is malformed and no event
references a parent that has not already been committed (so every per-line
insert succeeds), the job completes with `processed_lines = total_lines` and
`error_lines = 0` (starting from a fresh error counter and a clean staging
table). -/
theorem claim_C8_clean_file :
    ∀ (pd : String → Option Millis) (fp : String) (lines : List String) (db0 : DB),
      db0.job.error_lines = 0 → db0.staging = [] →
      cleanRun pd fp lines ⟨markProcessing db0, 0, 0⟩ = true →
      (processFile pd .noFail fp lines db0).job.status = .COMPLETED ∧
      (processFile pd .noFail fp lines db0).job.processed_lines = lines.length ∧
      (processFile pd .noFail fp lines db0).job.total_lines = lines.length ∧
      (processFile pd .noFail fp lines db0).job.error_lines = 0 := by
  intro pd fp lines db0 herr hstg hclean
  obtain ⟨hs, he, _, hsc⟩ := cleanRun_fold pd fp lines ⟨markProcessing db0, 0, 0⟩ hclean
  have hstaging : (runLoop pd fp lines (markProcessing db0)).db.staging = [] := by
    show (lines.foldl (stepLine pd fp) ⟨markProcessing db0, 0, 0⟩).db.staging = []
    rw [hs]
    exact hstg
  have hdef := deferredInsert_empty hstaging
  rw [processFile_noFail_some hdef]
  have hln := runLoop_lineNumber pd fp lines ⟨markProcessing db0, 0, 0⟩
  refine ⟨rfl, ?_, ?_, ?_⟩
  · show (runLoop pd fp lines (markProcessing db0)).successCount = lines.length
    show (lines.foldl (stepLine pd fp) ⟨markProcessing db0, 0, 0⟩).successCount = lines.length
    rw [hsc]
    show 0 + lines.length = lines.length
    omega
  · show (runLoop pd fp lines (markProcessing db0)).lineNumber = lines.length
    show (lines.foldl (stepLine pd fp) ⟨markProcessing db0, 0, 0⟩).lineNumber = lines.length
    rw [hln]
    show 0 + lines.length = lines.length
    omega
  · show (runLoop pd fp lines (markProcessing db0)).db.job.error_lines = 0
    show (lines.foldl (stepLine pd fp) ⟨markProcessing db0, 0, 0⟩).db.job.error_lines = 0
    rw [he]
    exact herr

/-- Witness for C8: a two-line file, a root event `A` and its child `B`, run
against a fresh database. -/
theorem claim_C8_clean_file_witness :
    (processFile constDate .noFail "f" [lineA, lineB] freshDB).job.status = .COMPLETED ∧
    (processFile constDate .noFail "f" [lineA, lineB] freshDB).job.processed_lines = 2 ∧
    (processFile constDate .noFail "f" [lineA, lineB] freshDB).job.total_lines = 2 ∧
    (processFile constDate .noFail "f" [lineA, lineB] freshDB).job.error_lines = 0 :=
  claim_C8_clean_file constDate "f" [lineA, lineB] freshDB rfl rfl (by decide)

/-- C10: when an ingestion job reaches COMPLETED, every line of the input has
been counted exactly once in either the processed or the error counter, so
`processed_lines + error_lines = total_lines` (a staged line counts as
processed), starting from a fresh error counter. -/
theorem claim_C10_line_conservation :
    ∀ (pd : String → Option Millis) (fp : String) (lines : List String) (db0 : DB),
      db0.job.error_lines = 0 →
      (processFile pd .noFail fp lines db0).job.status = .COMPLETED →
      (processFile pd .noFail fp lines db0).job.processed_lines +
          (processFile pd .noFail fp lines db0).job.error_lines =
        (processFile pd .noFail fp lines db0).job.total_lines ∧
      (processFile pd .noFail fp lines db0).job.total_lines = lines.length := by
  intro pd fp lines db0 herr hstatus
  cases hdef : deferredInsert (runLoop pd fp lines (markProcessing db0)).db with
  | none =>
    exfalso
    rw [processFile_noFail_none hdef] at hstatus
    cases hstatus
  | some db2 =>
    rw [processFile_noFail_some hdef]
    obtain ⟨hjob, _, _⟩ := deferredInsert_job hdef
    have hsum := runLoop_sum pd fp lines ⟨markProcessing db0, 0, 0⟩
    have hln := runLoop_lineNumber pd fp lines ⟨markProcessing db0, 0, 0⟩
    have hinit : (⟨markProcessing db0, 0, 0⟩ : LoopState).db.job.error_lines = 0 := herr
    constructor
    · show (runLoop pd fp lines (markProcessing db0)).successCount + db2.job.error_lines =
        (runLoop pd fp lines (markProcessing db0)).lineNumber
      rw [hjob]
      show (lines.foldl (stepLine pd fp) ⟨markProcessing db0, 0, 0⟩).successCount +
          (lines.foldl (stepLine pd fp) ⟨markProcessing db0, 0, 0⟩).db.job.error_lines =
        (lines.foldl (stepLine pd fp) ⟨markProcessing db0, 0, 0⟩).lineNumber
      rw [hsum, hln, hinit]
    · show (runLoop pd fp lines (markProcessing db0)).lineNumber = lines.length
      show (lines.foldl (stepLine pd fp) ⟨markProcessing db0, 0, 0⟩).lineNumber = lines.length
      rw [hln]
      show 0 + lines.length = lines.length
      omega

/-- Witness for C10: a two-line file whose second line is staged (missing
parent) and which still completes with `1 + ... = 2`?  No: both lines count
as processed, the orphaned one included, and no error line is recorded. -/
theorem claim_C10_line_conservation_witness :
    (processFile constDate .noFail "f" [lineA, lineX] freshDB).job.processed_lines +
        (processFile constDate .noFail "f" [lineA, lineX] freshDB).job.error_lines =
      (processFile constDate .noFail "f" [lineA, lineX] freshDB).job.total_lines ∧
    (processFile constDate .noFail "f" [lineA, lineX] freshDB).job.total_lines = 2 :=
  claim_C10_line_conservation constDate "f" [lineA, lineX] freshDB rfl (by decide)

/-- C9: committing an event whose ID is already present in the main store is
idempotent: the insert is a no-op treated as success, and at the line level
the store is unchanged while the success counter still advances. -/
theorem claim_C9_idempotent_commit :
    (∀ (hist : List Row) (r : Row), r.event_id ∈ rowIds hist →
        insertHistorical hist r = some hist) ∧
    (∀ (pd : String → Option Millis) (fp : String) (st : LoopState)
        (line : String) (p : Parsed),
        parseLine pd line = .ok p →
        p.eventId ∈ rowIds st.db.historical →
        (stepLine pd fp st line).db.historical = st.db.historical ∧
        (stepLine pd fp st line).successCount = st.successCount + 1) := by
  constructor
  · intro hist r h
    unfold insertHistorical
    rw [if_pos h]
  · intro pd fp st line p hpl hmem
    have hins : insertHistorical st.db.historical (rowOf fp (st.lineNumber + 1) p) =
        some st.db.historical := by
      unfold insertHistorical
      rw [if_pos
        (show (rowOf fp (st.lineNumber + 1) p).event_id ∈ rowIds st.db.historical from hmem)]
    obtain ⟨_, _, _, h4, h5⟩ := stepLine_ok_some hpl hins
    exact ⟨h5, h4⟩

/-- Witness for C9: re-inserting an already stored row is a no-op success. -/
theorem claim_C9_idempotent_commit_witness :
    insertHistorical [⟨uuidA, "A", "d", 0, 0, 0, none, "f", 1, "rv"⟩]
        ⟨uuidA, "A2", "d2", 5, 9, 0, none, "g", 7, "rv2"⟩ =
      some [⟨uuidA, "A", "d", 0, 0, 0, none, "f", 1, "rv"⟩] :=
  claim_C9_idempotent_commit.1 _ _ (by decide)

/-- C4 counterexample: a stream-open failure happens before the source stream
has opened successfully, yet the job transitions to FAILED, not PENDING,
because the PROCESSING update has already been recorded. -/
theorem claim_C4_status_counterexample :
    (processFile constDate (.failAtStreamOpen "ENOENT") "f" [] freshDB).job.status =
      .FAILED ∧ freshDB.job.status = .PENDING :=
  ⟨rfl, rfl⟩

/-- C4 (amended): the job status follows
`PENDING → PROCESSING → {COMPLETED, FAILED}`, but the PROCESSING update is
issued before the stream opens; only a failure of that very first status
update leaves the job PENDING, while any later failure — including a failure
to open the source stream — transitions it to FAILED; in both failure cases a
fatal error is recorded and the end time is stamped. -/
theorem claim_C4_status_machine :
    ∀ (pd : String → Option Millis) (fp : String) (lines : List String)
      (db0 : DB) (m : String),
      ((processFile pd (.failAtStatusUpdate m) fp lines db0).job.status = .PENDING ∧
        (processFile pd (.failAtStatusUpdate m) fp lines db0).job.errors =
          db0.job.errors ++ [fatalErrorString m] ∧
        (processFile pd (.failAtStatusUpdate m) fp lines db0).job.end_time_stamped = true) ∧
      ((processFile pd (.failAtStreamOpen m) fp lines db0).job.status = .FAILED ∧
        (processFile pd (.failAtStreamOpen m) fp lines db0).job.errors =
          db0.job.errors ++ [fatalErrorString m] ∧
        (processFile pd (.failAtStreamOpen m) fp lines db0).job.end_time_stamped = true) ∧
      ((processFile pd .noFail fp lines db0).job.status = .COMPLETED ∨
        (processFile pd .noFail fp lines db0).job.status = .FAILED) := by
  intro pd fp lines db0 m
  refine ⟨⟨rfl, rfl, rfl⟩, ⟨rfl, rfl, rfl⟩, ?_⟩
  cases hdef : deferredInsert (runLoop pd fp lines (markProcessing db0)).db with
  | none =>
    right
    rw [processFile_noFail_none hdef]
    rfl
  | some db2 =>
    left
    rw [processFile_noFail_some hdef]

/-- C1 counterexample: the file `B(parent=A), C(parent=B), D(parent=C),
A(parent=none)` stages `B, C, D`; the promotion commits only the two-pass
closure `B, C`, so `D` stays uncommitted although its entire ancestor chain
`A, B, C` is committed — against the claimed fixed point of arbitrary
depth — and the job still reports COMPLETED. -/
theorem claim_C1_fixed_point_counterexample :
    (processFile constDate .noFail "f" [lineB, lineC, lineD, lineA] freshDB).job.status =
      .COMPLETED ∧
    uuidA ∈ rowIds
      (processFile constDate .noFail "f" [lineB, lineC, lineD, lineA] freshDB).historical ∧
    uuidB ∈ rowIds
      (processFile constDate .noFail "f" [lineB, lineC, lineD, lineA] freshDB).historical ∧
    uuidC ∈ rowIds
      (processFile constDate .noFail "f" [lineB, lineC, lineD, lineA] freshDB).historical ∧
    uuidD ∉ rowIds
      (processFile constDate .noFail "f" [lineB, lineC, lineD, lineA] freshDB).historical := by
  refine ⟨by decide, by decide, by decide, by decide, by decide⟩

/-- C1 (amended): after the line stream is exhausted, promotion of staged
events runs exactly two passes (staged events whose parent is already
committed, then staged events whose parent was promoted by the first pass),
so forward-reference chains of staged events commit up to depth 2; in
particular a file `A(parent=none), C(parent=B), B(parent=A)` commits all
three events with `processed_lines = total_lines = 3` and no errors. -/
theorem claim_C1_two_pass_promotion :
    (∀ (db db' : DB), deferredInsert db = some db' →
        ∀ r ∈ db.staging, ∀ p, r.parent_event_id = some p →
          (p ∈ rowIds db.historical ∨
            ∃ q ∈ db.staging, q.event_id = p ∧
              ∃ g, q.parent_event_id = some g ∧ g ∈ rowIds db.historical) →
          r.event_id ∈ rowIds db'.historical) ∧
    rowIds (processFile constDate .noFail "f" [lineA, lineC, lineB] freshDB).historical =
      [uuidA, uuidB, uuidC] ∧
    (processFile constDate .noFail "f" [lineA, lineC, lineB] freshDB).job.status =
      .COMPLETED ∧
    (processFile constDate .noFail "f" [lineA, lineC, lineB] freshDB).job.processed_lines = 3 ∧
    (processFile constDate .noFail "f" [lineA, lineC, lineB] freshDB).job.total_lines = 3 ∧
    (processFile constDate .noFail "f" [lineA, lineC, lineB] freshDB).job.error_lines = 0 ∧
    (processFile constDate .noFail "f" [lineA, lineC, lineB] freshDB).job.errors = [] := by
  refine ⟨?_, by decide, by decide, by decide, by decide, by decide, by decide⟩
  intro db db' hdef r hr p hp hcases
  obtain ⟨_, _, hhist⟩ := deferredInsert_job hdef
  rw [hhist, rowIds_append]
  refine List.mem_append_right _ ?_
  unfold deferredBatch rowIds
  rw [List.map_append]
  rcases hcases with hcommitted | ⟨q, hq, hqid, g, hg, hgmem⟩
  · exact List.mem_append_left _ (List.mem_map_of_mem _ (mem_firstPart hr hp hcommitted))
  · refine List.mem_append_right _ (List.mem_map_of_mem _ ?_)
    refine mem_secondPart hr hp ?_
    rw [← hqid]
    exact List.mem_map_of_mem _ (mem_firstPart hq hg hgmem)

/-- Witness for C1: a store holding `A`, a staging table holding
`B(parent=A)`; the two-pass promotion commits `B`. -/
theorem claim_C1_two_pass_promotion_witness :
    uuidB ∈ rowIds
      (⟨[⟨uuidA, "A", "d", 0, 0, 0, none, "f", 1, "rv"⟩,
          ⟨uuidB, "B", "d", 0, 0, 0, some uuidA, "f", 2, "rv"⟩],
        [⟨uuidB, "B", "d", 0, 0, 0, some uuidA, "f", 2, "rv"⟩],
        freshJob⟩ : DB).historical :=
  claim_C1_two_pass_promotion.1
    ⟨[⟨uuidA, "A", "d", 0, 0, 0, none, "f", 1, "rv"⟩],
      [⟨uuidB, "B", "d", 0, 0, 0, some uuidA, "f", 2, "rv"⟩], freshJob⟩
    _ (by decide)
    ⟨uuidB, "B", "d", 0, 0, 0, some uuidA, "f", 2, "rv"⟩ (by decide)
    uuidA rfl (Or.inl (by decide))

/-- C2 counterexample: a single line whose parent never appears gets staged
and never committed, yet the job completes with an empty error list — no
"orphaned" error is recorded, against the claim of exactly one orphan error
per unresolved event. -/
theorem claim_C2_orphan_error_counterexample :
    (processFile constDate .noFail "f" [lineX] freshDB).job.status = .COMPLETED ∧
    (processFile constDate .noFail "f" [lineX] freshDB).job.errors = [] ∧
    (processFile constDate .noFail "f" [lineX] freshDB).job.error_lines = 0 ∧
    uuidX ∉ rowIds (processFile constDate .noFail "f" [lineX] freshDB).historical ∧
    (processFile constDate .noFail "f" [lineX] freshDB).job.processed_lines = 1 := by
  refine ⟨by decide, by decide, by decide, by decide, by decide⟩

/-- C2 (amended): a staged event whose parent chain is not resolved by the
two-pass promotion is never committed to the main store, but no orphan error
is recorded: ids absent from both the store and the promotion batch stay
uncommitted, a COMPLETED job's error list is exactly the per-line parse
errors, and the unresolved event still counts toward `processed_lines` (as in
the one-orphan run, which completes with one processed line, no errors and
nothing committed). -/
theorem claim_C2_no_orphan_error :
    (∀ (db db' : DB), deferredInsert db = some db' →
        ∀ i : String, i ∉ rowIds db.historical → i ∉ rowIds (deferredBatch db) →
          i ∉ rowIds db'.historical) ∧
    (∀ (pd : String → Option Millis) (fp : String) (lines : List String) (db0 : DB),
        (processFile pd .noFail fp lines db0).job.status = .COMPLETED →
        (processFile pd .noFail fp lines db0).job.errors =
          db0.job.errors ++ lineErrors pd 0 lines) ∧
    uuidX ∉ rowIds (processFile constDate .noFail "f" [lineX] freshDB).historical ∧
    (processFile constDate .noFail "f" [lineX] freshDB).job.processed_lines = 1 ∧
    (processFile constDate .noFail "f" [lineX] freshDB).job.errors = [] := by
  refine ⟨?_, ?_, by decide, by decide, by decide⟩
  · intro db db' hdef i h1 h2 hmem
    obtain ⟨_, _, hhist⟩ := deferredInsert_job hdef
    rw [hhist, rowIds_append] at hmem
    rcases List.mem_append.mp hmem with h | h
    · exact h1 h
    · exact h2 h
  · intro pd fp lines db0 hstatus
    cases hdef : deferredInsert (runLoop pd fp lines (markProcessing db0)).db with
    | none =>
      exfalso
      rw [processFile_noFail_none hdef] at hstatus
      cases hstatus
    | some db2 =>
      rw [processFile_noFail_some hdef]
      show db2.job.errors = db0.job.errors ++ lineErrors pd 0 lines
      obtain ⟨hjob, _, _⟩ := deferredInsert_job hdef
      rw [hjob]
      show (lines.foldl (stepLine pd fp) ⟨markProcessing db0, 0, 0⟩).db.job.errors =
        db0.job.errors ++ lineErrors pd 0 lines
      rw [runLoop_errors]
      rfl

/-- Witness for C2: on the one-orphan file the COMPLETED job's error list is
the (empty) list of parse errors. -/
theorem claim_C2_no_orphan_error_witness :
    (processFile constDate .noFail "f" [lineX] freshDB).job.errors = [] := by
  have h := claim_C2_no_orphan_error.2.1 constDate "f" [lineX] freshDB (by decide)
  exact h.trans (by decide)

/-- C3 at the failing input: the line splits into 8 raw parts only because
the description contains the delimiter, and the parser throws the
invalid-field-count error rather than accepting the line with description
`desc|more`. -/
theorem claim_C3_description_rejoin :
    (jsSplit '|' c3Line).length = 8 ∧
    ∀ parseDate : String → Option Millis,
      parseLine parseDate c3Line =
        .error "Invalid number of fields. Expected 7, got 8." := by
  refine ⟨by decide, fun parseDate => ?_⟩
  rfl

end Chronologicon
